import Mathlib

/-!
Shallow embedding of the SNP discovery / region classification / hotspot
aggregation pipeline implemented in `dataprocess.py`, together with proofs
about the pipeline's behaviour.  Sequences are modelled as `List Char`,
Python floats as `ℚ`, Python dicts as association lists, and a Python
function that can raise an exception on some input is modelled as a
function into `Option` returning `none` exactly where the Python code
raises.
-/

namespace DnaPipeline

/-- An interval emitted by the region classifiers:
`{'start': ..., 'end': ..., 'type': ...}` in the Python source.
`end` is a Lean keyword, so the field is called `iend`; it is exclusive. -/
structure Interval where
  start : Nat
  iend : Nat
  itype : String
deriving Repr, DecidableEq

/-- A hotspot record emitted by `identify_editing_hotspots`:
`{'start', 'end', 'snp_count', 'snps', 'snp_density'}` in the source. -/
structure Hotspot where
  start : Nat
  iend : Nat
  snp_count : Nat
  snps : List Nat
  snp_density : ℚ
deriving Repr, DecidableEq

/-- `min(len(seq) for seq in sequences)`: Python's `min` raises `ValueError`
on an empty generator, modelled by `none`. -/
def minLength? (sequences : List (List Char)) : Option Nat :=
  match sequences with
  | [] => none
  | s :: rest => some (rest.foldl (fun m t => Nat.min m t.length) s.length)

/-- The column sample at index `i`:
`[seq[i].upper() for seq in sequences if i < len(seq) and seq[i].upper() in 'ATGC']`
(lines 150 and 210 of `dataprocess.py`). -/
def colSample (sequences : List (List Char)) (i : Nat) : List Char :=
  sequences.filterMap fun s =>
    match s[i]? with
    | none => none
    | some c =>
      let u := c.toUpper
      if u ∈ ['A', 'T', 'G', 'C'] then some u else none

/-- The count of the most frequent element, `Counter(l).most_common(1)[0][1]`
for a non-empty `l` (and `0` for an empty one). -/
def maxCount (l : List Char) : Nat :=
  (l.map fun c => l.count c).foldr Nat.max 0

/-- The per-column conservation test of `identify_conserved_regions`
(lines 150-161): the sample is non-empty and the most common nucleotide's
frequency is at least the threshold. -/
def conservedAt (sequences : List (List Char)) (threshold : ℚ) (i : Nat) : Bool :=
  let nucleotides := colSample sequences i
  !nucleotides.isEmpty &&
    decide (threshold ≤ (maxCount nucleotides : ℚ) / (nucleotides.length : ℚ))

/-- The run-grouping loop of `identify_conserved_regions` (lines 167-190):
`start`/`prev` track the current run, each break emits `{start, prev+1}`. -/
def runsFrom : Nat → Nat → List Nat → List Interval
  | start, prev, [] => [⟨start, prev + 1, "conserved"⟩]
  | start, prev, pos :: rest =>
    if pos = prev + 1 then runsFrom start pos rest
    else ⟨start, prev + 1, "conserved"⟩ :: runsFrom pos pos rest

/-- Conversion of the sorted conserved-position list to merged regions
(lines 163-190 of `dataprocess.py`): empty input yields `[]`. -/
def positionsToRegions : List Nat → List Interval
  | [] => []
  | p :: rest => runsFrom p p rest

/-- `identify_conserved_regions(sequences, conservation_threshold)`:
`none` models the `ValueError` that `min()` raises on an empty collection. -/
def identify_conserved_regions (sequences : List (List Char))
    (conservation_threshold : ℚ) : Option (List Interval) :=
  (minLength? sequences).map fun minLen =>
    positionsToRegions
      ((List.range minLen).filter (conservedAt sequences conservation_threshold))

/-- `is_pathogenic_snp(pos, sequence, pathogenic_patterns, test_mode)`
(lines 104-138).  In test mode the function returns `False` before looking
at anything else.  In strict mode it extracts the `[max(0,pos-15), min(len,pos+15))`
context and searches it for a disqualifying pattern; the regex patterns are
abstracted as predicates on the context string. -/
def is_pathogenic_snp (pos : Nat) (sequence : List Char)
    (pathogenic_patterns : List (List Char → Bool)) (test_mode : Bool) : Bool :=
  if test_mode then false
  else
    let start := pos - 15
    let stop := Nat.min sequence.length (pos + 15)
    let context := (sequence.take stop).drop start
    pathogenic_patterns.any fun pattern => pattern context

/-- The per-column SNP test of `find_snps_with_max_variation` (lines 208-228):
coverage check, distinct-nucleotide check, then the pathogenicity loop over
all sequences covering the column.  The pathogenicity call uses the Python
defaults `pathogenic_patterns=None, test_mode=True`; with `test_mode=True`
the pattern list is never read, so it is passed as `[]` here. -/
def columnIsSnp (sequences : List (List Char)) (min_variants min_coverage : Nat)
    (i : Nat) : Bool :=
  let nucleotides := colSample sequences i
  if nucleotides.length < min_coverage then false
  else if min_variants ≤ nucleotides.dedup.length then
    !(sequences.any fun s => decide (i < s.length) && is_pathogenic_snp i s [] true)
  else false

/-- The test-SNP injection loops (lines 231-240): append each position
that is not already present, checking membership against the growing list. -/
def addMissing (ps : List Nat) (extra : List Nat) : List Nat :=
  extra.foldl (fun acc pos => if pos ∈ acc then acc else acc ++ [pos]) ps

/-- `find_snps_with_max_variation(sequences, min_variants, min_coverage, add_test_snps)`
(lines 195-242): `none` models the `ValueError` raised by `min()` on an
empty collection. -/
def find_snps_with_max_variation (sequences : List (List Char))
    (min_variants min_coverage : Nat) (add_test_snps : Bool) : Option (List Nat) :=
  (minLength? sequences).map fun minLen =>
    let snp_positions :=
      (List.range minLen).filter (columnIsSnp sequences min_variants min_coverage)
    if add_test_snps then
      addMissing (addMissing snp_positions [10, 11, 12, 13, 14, 15]) [50, 51, 52]
    else snp_positions

/-- The context slice of `extract_unique_snp_contexts` (lines 265-267):
`seq[max(0, pos - context_size) : min(len(seq), pos + context_size + 1)]`.
Natural subtraction gives the `max(0, ...)` clamp. -/
def contextAt (seq : List Char) (pos context_size : Nat) : List Char :=
  (seq.take (Nat.min seq.length (pos + context_size + 1))).drop (pos - context_size)

/-- The context-collection loop of `extract_unique_snp_contexts`
(lines 261-271): a sequence contributes iff it covers `pos`, and the slice is
kept iff `test_mode` is set or it has the full length `2*context_size+1`. -/
def contextsFor (sequences : List (List Char)) (pos context_size : Nat)
    (test_mode : Bool) : List (List Char) :=
  sequences.filterMap fun seq =>
    if pos < seq.length then
      let context := contextAt seq pos context_size
      if test_mode || decide (context.length = 2 * context_size + 1) then some context
      else none
    else none

/-- `extract_unique_snp_contexts(snp_positions, sequences, context_size, test_mode)`
(lines 245-288), returning the `(unique_snps, snp_contexts)` pair with the
dict modelled as an association list. -/
def extract_unique_snp_contexts (snp_positions : List Nat)
    (sequences : List (List Char)) (context_size : Nat) (test_mode : Bool) :
    List Nat × List (Nat × List (List Char)) :=
  snp_positions.foldl
    (fun acc pos =>
      let contexts := contextsFor sequences pos context_size test_mode
      if contexts.isEmpty then acc
      else
        let context_set := contexts.dedup
        if test_mode then
          if 2 ≤ context_set.length then
            (acc.1 ++ [pos], acc.2 ++ [(pos, contexts)])
          else acc
        else
          if context_set.length = contexts.length then
            (acc.1 ++ [pos], acc.2 ++ [(pos, contexts)])
          else acc)
    ([], [])

/-- `identify_editing_hotspots(snp_positions, window_size, min_snps)`
(lines 291-321).  `sorted(snp_positions)` is Python's stable sort; on `ℕ`
ordered by `≤` the sorted list is unique, embedded with insertion sort.
`range(0, max_pos, step_size)` has `ceil(max_pos / step_size)` elements,
embedded with `List.range'`. -/
def identify_editing_hotspots (snp_positions : List Nat)
    (window_size min_snps : Nat) : List Hotspot :=
  if snp_positions.isEmpty then []
  else
    let sorted_positions := List.insertionSort (· ≤ ·) snp_positions
    let max_pos := sorted_positions.getLast?.getD 0
    let step_size := Nat.max 1 (window_size / 10)
    let starts := List.range' 0 ((max_pos + step_size - 1) / step_size) step_size
    starts.filterMap fun start =>
      let stop := start + window_size
      let snps_in_window :=
        sorted_positions.filter fun pos => decide (start ≤ pos) && decide (pos < stop)
      if min_snps ≤ snps_in_window.length then
        some ⟨start, stop, snps_in_window.length, snps_in_window,
              (snps_in_window.length : ℚ) / (window_size : ℚ)⟩
      else none

/-- Whether `region['start'] <= pos < region['end']` (lines 413 and 420
of `preprocess_dna_data`). -/
def inRegion (pos : Nat) (region : Interval) : Bool :=
  decide (region.start ≤ pos) && decide (pos < region.iend)

/-- The SNP interval-filter step of `preprocess_dna_data` (lines 407-426):
keep a position iff it lies in no unstable region and no conserved region. -/
def filterSnpsOutsideRegions (snp_positions : List Nat)
    (unstable_regions conserved_regions : List Interval) : List Nat :=
  snp_positions.filter fun pos =>
    !(unstable_regions.any (inRegion pos)) && !(conserved_regions.any (inRegion pos))

end DnaPipeline

namespace DnaPipeline

/-- Claim C6: in its lenient/testing mode (`test_mode=True`, the default) the
pathogenicity gate returns `False` for every position, sequence and pattern
list, without inspecting any of them. -/
theorem C6_lenient_gate_never_pathogenic (pos : Nat) (sequence : List Char)
    (pathogenic_patterns : List (List Char → Bool)) :
    is_pathogenic_snp pos sequence pathogenic_patterns true = false := rfl

/-- Claim C2 (divergence witness): on an empty sequence collection both
`identify_conserved_regions` and `find_snps_with_max_variation` hit
`min()` over an empty generator, which raises `ValueError` (modelled as
`none`) instead of returning empty result lists as the claim states. -/
theorem C2_empty_collection_raises (threshold : ℚ)
    (min_variants min_coverage : Nat) (add_test_snps : Bool) :
    identify_conserved_regions [] threshold = none ∧
    find_snps_with_max_variation [] min_variants min_coverage add_test_snps = none :=
  ⟨rfl, rfl⟩

/-- Claim C4 (counterexample): for `context_size=3`, position 5 and sequence
`ATGCATGCATGC`, the extracted context is not the string `CATGCAT` claimed by
the spec. -/
theorem C4_counterexample :
    contextsFor ["ATGCATGCATGC".toList] 5 3 true ≠ ["CATGCAT".toList] := by
  decide

/-- Claim C4 (amended): for `context_size=3`, position 5 and sequence
`ATGCATGCATGC`, the extracted context is `GCATGCA` — the characters at
positions 2 through 8 inclusive, length 7. -/
theorem C4_context_value :
    contextsFor ["ATGCATGCATGC".toList] 5 3 true = ["GCATGCA".toList] ∧
    contextAt "ATGCATGCATGC".toList 5 3 = "GCATGCA".toList := by
  decide

/-- Claim C1 (counterexample): with the source's default
`add_test_snps=True`, the result for the single-sequence collection `["A"]`
contains the injected positions `10..15` and `50..52`, none of which is a
column index below the minimum length `1`, so the result is not exactly the
set of qualifying column indices. -/
theorem C1_counterexample :
    find_snps_with_max_variation [['A']] 2 1 true =
      some [10, 11, 12, 13, 14, 15, 50, 51, 52] ∧
    minLength? [['A']] = some 1 := by
  decide

/-- Claim C3 (counterexample): in strict mode (`test_mode=False`) a context
truncated at a sequence boundary is dropped, not collected: at position 0
with radius 3 the sequence `ATGCATGCATGC` covers the position, yet the
collected context list is empty. -/
theorem C3_counterexample :
    0 < ("ATGCATGCATGC".toList).length ∧
    contextsFor ["ATGCATGCATGC".toList] 0 3 false = [] := by
  decide

/-- Claim C9 (counterexample): for candidate positions `[10..15]` with
`window_size=5` and `min_snps=2`, no returned window contains the full
six-position cluster — a width-5 half-open window cannot hold six distinct
positions. -/
theorem C9_counterexample :
    (identify_editing_hotspots [10, 11, 12, 13, 14, 15] 5 2).all
      (fun hs => !(decide (hs.start ≤ 10) && decide (15 < hs.iend))) = true := by
  decide

/-- Claim C9 (amended): for candidate positions `[10..15]` with
`window_size=5` and `min_snps=2`, the aggregator returns at least one window
covering cluster positions 10 through 14 with `snp_count ≥ 2` (in fact 5);
only the full six-position containment fails. -/
theorem C9_cluster_window :
    ∃ hs ∈ identify_editing_hotspots [10, 11, 12, 13, 14, 15] 5 2,
      hs.start ≤ 10 ∧ 14 < hs.iend ∧ 2 ≤ hs.snp_count := by
  decide

end DnaPipeline

namespace DnaPipeline

/-- Claim C5: the interval filter retains a position `p` iff no interval
`[start, end)` in either the unstable or the conserved list satisfies
`start ≤ p < end`, and the surviving positions keep their original order
(the result is a sublist of the input). -/
theorem C5_interval_filter (snp_positions : List Nat)
    (unstable_regions conserved_regions : List Interval) (p : Nat) :
    (p ∈ filterSnpsOutsideRegions snp_positions unstable_regions conserved_regions ↔
      p ∈ snp_positions ∧
        ∀ iv : Interval, iv ∈ unstable_regions ∨ iv ∈ conserved_regions →
          ¬(iv.start ≤ p ∧ p < iv.iend)) ∧
    (filterSnpsOutsideRegions snp_positions unstable_regions conserved_regions).Sublist
      snp_positions := by
  refine ⟨?_, List.filter_sublist _⟩
  have key : ∀ iv : Interval, inRegion p iv = true ↔ iv.start ≤ p ∧ p < iv.iend := by
    intro iv; simp [inRegion]
  rw [filterSnpsOutsideRegions, List.mem_filter, Bool.and_eq_true,
    Bool.not_eq_true', Bool.not_eq_true', List.any_eq_false, List.any_eq_false]
  constructor
  · rintro ⟨h1, hu, hc⟩
    refine ⟨h1, ?_⟩
    rintro iv (hiv | hiv) hcon
    · exact hu iv hiv ((key iv).mpr hcon)
    · exact hc iv hiv ((key iv).mpr hcon)
  · rintro ⟨h1, h⟩
    exact ⟨h1, fun iv hiv hin => h iv (Or.inl hiv) ((key iv).mp hin),
      fun iv hiv hin => h iv (Or.inr hiv) ((key iv).mp hin)⟩

/-- Claim C5 witness: the filter applied to position 5 against the unstable
interval `[0, 3)` keeps 5, by instantiating the filter characterisation. -/
theorem C5_interval_filter_witness :
    (5 ∈ filterSnpsOutsideRegions [5] [⟨0, 3, "repeat"⟩] [] ↔
      5 ∈ [5] ∧
        ∀ iv : Interval, iv ∈ [(⟨0, 3, "repeat"⟩ : Interval)] ∨ iv ∈ ([] : List Interval) →
          ¬(iv.start ≤ 5 ∧ 5 < iv.iend)) ∧
    (filterSnpsOutsideRegions [5] [⟨0, 3, "repeat"⟩] []).Sublist [5] :=
  C5_interval_filter [5] [⟨0, 3, "repeat"⟩] [] 5

/-- Claim C3 (amended): in permissive mode (`test_mode=True`) the context
extractor collects, from every sequence long enough to include `pos`, the
slice `[max(0, pos-r), min(len, pos+r+1))`, truncated contexts included —
in particular a covered boundary position always contributes its (possibly
truncated) context.  (In strict mode only full-length contexts survive,
see the counterexample.) -/
theorem C3_permissive_collects (sequences : List (List Char))
    (pos context_size : Nat) :
    (contextsFor sequences pos context_size true =
      sequences.filterMap fun seq =>
        if pos < seq.length then some (contextAt seq pos context_size) else none) ∧
    ∀ seq ∈ sequences, pos < seq.length →
      contextAt seq pos context_size ∈ contextsFor sequences pos context_size true := by
  have heq : contextsFor sequences pos context_size true =
      sequences.filterMap fun seq =>
        if pos < seq.length then some (contextAt seq pos context_size) else none := by
    simp [contextsFor]
  refine ⟨heq, ?_⟩
  intro seq hseq hpos
  rw [heq, List.mem_filterMap]
  exact ⟨seq, hseq, by rw [if_pos hpos]⟩

/-- Claim C3 witness: the truncated boundary context at position 0 of
`ATGCATGCATGC` (radius 3) is collected in permissive mode. -/
theorem C3_permissive_collects_witness :
    contextAt "ATGCATGCATGC".toList 0 3 ∈
      contextsFor ["ATGCATGCATGC".toList] 0 3 true :=
  (C3_permissive_collects ["ATGCATGCATGC".toList] 0 3).2
    "ATGCATGCATGC".toList (by simp) (by decide)

/-- The per-column candidacy test of `find_snps_with_max_variation`, spelt
out: enough coverage, enough distinct nucleotides, and no sequence covering
the column reports the position as pathogenic. -/
theorem columnIsSnp_eq_true_iff (sequences : List (List Char))
    (min_variants min_coverage i : Nat) :
    columnIsSnp sequences min_variants min_coverage i = true ↔
      min_coverage ≤ (colSample sequences i).length ∧
      min_variants ≤ (colSample sequences i).dedup.length ∧
      (sequences.any fun s =>
        decide (i < s.length) && is_pathogenic_snp i s [] true) = false := by
  unfold columnIsSnp
  by_cases h1 : (colSample sequences i).length < min_coverage
  · simp [h1, Nat.not_le.mpr h1]
  · rw [if_neg h1]
    by_cases h2 : min_variants ≤ (colSample sequences i).dedup.length
    · simp [h2, Bool.not_eq_true', Nat.not_lt.mp h1]
    · simp [h2]

/-- Claim C1 (amended): with the synthetic test-SNP injection disabled
(`add_test_snps=False`), the candidate list of
`find_snps_with_max_variation` contains exactly those column indices `i`
below the minimum sequence length whose canonical A/T/G/C sample has at
least `min_coverage` symbols and at least `min_variants` distinct symbols
and that pass the pathogenicity gate. -/
theorem C1_exact_candidates (sequences : List (List Char))
    (min_variants min_coverage minLen : Nat) (ps : List Nat)
    (hm : minLength? sequences = some minLen)
    (h : find_snps_with_max_variation sequences min_variants min_coverage false =
      some ps) (i : Nat) :
    i ∈ ps ↔
      i < minLen ∧
      min_coverage ≤ (colSample sequences i).length ∧
      min_variants ≤ (colSample sequences i).dedup.length ∧
      (sequences.any fun s =>
        decide (i < s.length) && is_pathogenic_snp i s [] true) = false := by
  unfold find_snps_with_max_variation at h
  rw [hm] at h
  have h' : (List.range minLen).filter
      (columnIsSnp sequences min_variants min_coverage) = ps := by
    simpa using h
  subst h'
  rw [List.mem_filter, List.mem_range, columnIsSnp_eq_true_iff]

/-- Claim C1 witness: on the spec's five test sequences with
`min_variants=2`, `min_coverage=3` and injection disabled, column 1 is a
candidate and the characterisation evaluates as stated. -/
theorem C1_exact_candidates_witness :
    minLength? ["ATGCATGCATGC".toList, "ACGCATGCATGC".toList, "ATGCATACATGC".toList,
      "ATGCATGCGTGC".toList, "ATGCATGCATTC".toList] = some 12 ∧
    (1 ∈ [1, 6, 8, 10] ↔
      1 < 12 ∧
      3 ≤ (colSample ["ATGCATGCATGC".toList, "ACGCATGCATGC".toList,
        "ATGCATACATGC".toList, "ATGCATGCGTGC".toList, "ATGCATGCATTC".toList] 1).length ∧
      2 ≤ (colSample ["ATGCATGCATGC".toList, "ACGCATGCATGC".toList,
        "ATGCATACATGC".toList, "ATGCATGCGTGC".toList,
        "ATGCATGCATTC".toList] 1).dedup.length ∧
      ((["ATGCATGCATGC".toList, "ACGCATGCATGC".toList, "ATGCATACATGC".toList,
        "ATGCATGCGTGC".toList, "ATGCATGCATTC".toList] : List (List Char)).any fun s =>
        decide (1 < s.length) && is_pathogenic_snp 1 s [] true) = false) :=
  ⟨by decide,
   C1_exact_candidates ["ATGCATGCATGC".toList, "ACGCATGCATGC".toList,
     "ATGCATACATGC".toList, "ATGCATGCGTGC".toList, "ATGCATGCATTC".toList]
     2 3 12 [1, 6, 8, 10] (by decide) (by decide) 1⟩

end DnaPipeline

namespace DnaPipeline

/-- Claim C8: every hotspot emitted by `identify_editing_hotspots` has width
exactly `window_size`, `snp_count` equal to the length of its position list,
density equal to `snp_count / window_size`, and a position list that is
sorted ascending and holds exactly the input positions (with multiplicity)
falling in `[start, end)`. -/
theorem C8_hotspot_invariants (snp_positions : List Nat)
    (window_size min_snps : Nat) (hw : 0 < window_size) (hs : Hotspot)
    (hmem : hs ∈ identify_editing_hotspots snp_positions window_size min_snps) :
    hs.iend - hs.start = window_size ∧
    hs.snp_count = hs.snps.length ∧
    hs.snp_density = (hs.snp_count : ℚ) / (window_size : ℚ) ∧
    List.Sorted (· ≤ ·) hs.snps ∧
    (hs.snps : Multiset ℕ) =
      Multiset.filter (fun p => hs.start ≤ p ∧ p < hs.iend)
        (snp_positions : Multiset ℕ) := by
  unfold identify_editing_hotspots at hmem
  by_cases hemp : snp_positions.isEmpty
  · rw [if_pos hemp] at hmem
    exact absurd hmem (List.not_mem_nil _)
  · rw [if_neg hemp] at hmem
    simp only [List.mem_filterMap] at hmem
    obtain ⟨start, -, hval⟩ := hmem
    by_cases hcnt : min_snps ≤
        ((List.insertionSort (· ≤ ·) snp_positions).filter fun pos =>
          decide (start ≤ pos) && decide (pos < start + window_size)).length
    · rw [if_pos hcnt, Option.some.injEq] at hval
      subst hval
      dsimp only
      have hperm : List.Perm (List.insertionSort (· ≤ ·) snp_positions) snp_positions :=
        List.perm_insertionSort _ _
      refine ⟨by omega, rfl, rfl, ?_, ?_⟩
      · exact ((List.sorted_insertionSort (· ≤ ·) snp_positions).sublist
          (List.filter_sublist _))
      · have hfe : ((List.insertionSort (· ≤ ·) snp_positions).filter fun pos =>
            decide (start ≤ pos) && decide (pos < start + window_size)) =
            ((List.insertionSort (· ≤ ·) snp_positions).filter fun pos =>
              decide (start ≤ pos ∧ pos < start + window_size)) := by
          simp [Bool.decide_and]
        rw [hfe]
        exact (Multiset.coe_eq_coe.mpr (hperm.filter _)).trans
          (Multiset.filter_coe
            (fun pos => start ≤ pos ∧ pos < start + window_size) snp_positions).symm
    · rw [if_neg hcnt] at hval
      exact absurd hval (by simp)

/-- Claim C8 witness: for input positions `[1, 2]` with `window_size=5` and
`min_snps=1`, the window starting at 0 satisfies every invariant. -/
theorem C8_hotspot_invariants_witness :
    (⟨0, 5, 2, [1, 2], (2 : ℚ) / 5⟩ : Hotspot).iend -
      (⟨0, 5, 2, [1, 2], (2 : ℚ) / 5⟩ : Hotspot).start = 5 ∧
    (⟨0, 5, 2, [1, 2], (2 : ℚ) / 5⟩ : Hotspot).snp_count =
      (⟨0, 5, 2, [1, 2], (2 : ℚ) / 5⟩ : Hotspot).snps.length ∧
    (⟨0, 5, 2, [1, 2], (2 : ℚ) / 5⟩ : Hotspot).snp_density =
      ((⟨0, 5, 2, [1, 2], (2 : ℚ) / 5⟩ : Hotspot).snp_count : ℚ) / (5 : ℚ) ∧
    List.Sorted (· ≤ ·) (⟨0, 5, 2, [1, 2], (2 : ℚ) / 5⟩ : Hotspot).snps ∧
    ((⟨0, 5, 2, [1, 2], (2 : ℚ) / 5⟩ : Hotspot).snps : Multiset ℕ) =
      Multiset.filter
        (fun p => (⟨0, 5, 2, [1, 2], (2 : ℚ) / 5⟩ : Hotspot).start ≤ p ∧
          p < (⟨0, 5, 2, [1, 2], (2 : ℚ) / 5⟩ : Hotspot).iend)
        (([1, 2] : List ℕ) : Multiset ℕ) := by
  have hlist : ((List.insertionSort (· ≤ ·) [1, 2]).filter fun pos =>
      decide (0 ≤ pos) && decide (pos < 0 + 5)) = [1, 2] := by decide
  have hmem : (⟨0, 5, 2, [1, 2], (2 : ℚ) / 5⟩ : Hotspot) ∈
      identify_editing_hotspots [1, 2] 5 1 := by
    unfold identify_editing_hotspots
    rw [if_neg (by decide)]
    simp only [List.mem_filterMap]
    refine ⟨0, by decide, ?_⟩
    rw [hlist, if_pos (by decide)]
    norm_num
  exact C8_hotspot_invariants [1, 2] 5 1 (by decide) _ hmem

/-- Claim C10: the hotspot aggregator is invariant under reordering of the
input position list — permuted inputs give identical hotspot lists, because
the positions are sorted before windowing. -/
theorem C10_permutation_invariant (ps ps' : List Nat) (h : ps.Perm ps')
    (window_size min_snps : Nat) :
    identify_editing_hotspots ps window_size min_snps =
      identify_editing_hotspots ps' window_size min_snps := by
  have hsort : List.insertionSort (· ≤ ·) ps = List.insertionSort (· ≤ ·) ps' :=
    List.eq_of_perm_of_sorted
      ((List.perm_insertionSort _ ps).trans (h.trans (List.perm_insertionSort _ ps').symm))
      (List.sorted_insertionSort _ ps) (List.sorted_insertionSort _ ps')
  have hemp : ps.isEmpty = ps'.isEmpty := by
    rcases ps with _ | ⟨a, l⟩ <;> rcases ps' with _ | ⟨b, m⟩ <;> simp_all
  unfold identify_editing_hotspots
  rw [hsort, hemp]

/-- Claim C10 witness: the permuted inputs `[3, 1]` and `[1, 3]` give the
same hotspot list. -/
theorem C10_permutation_invariant_witness :
    ([3, 1] : List Nat).Perm [1, 3] ∧
    identify_editing_hotspots [3, 1] 7 1 = identify_editing_hotspots [1, 3] 7 1 :=
  ⟨List.Perm.swap 1 3 [], C10_permutation_invariant [3, 1] [1, 3]
    (List.Perm.swap 1 3 []) 7 1⟩

end DnaPipeline

namespace DnaPipeline

/-- Every interval produced by `runsFrom start prev l` (for a strictly
increasing `l` lying above `prev ≥ start`) starts at or after `start` and
is non-degenerate. -/
theorem runsFrom_start_le (l : List Nat) :
    ∀ start prev : Nat, start ≤ prev → (∀ x ∈ l, prev < x) →
      List.Pairwise (· < ·) l →
      ∀ iv ∈ runsFrom start prev l, start ≤ iv.start ∧ iv.start < iv.iend := by
  induction l with
  | nil =>
    intro start prev hsp _ _ iv hiv
    rw [runsFrom, List.mem_singleton] at hiv
    subst hiv
    exact ⟨Nat.le_refl _, by show start < prev + 1; omega⟩
  | cons pos rest ih =>
    intro start prev hsp hgt hpw iv hiv
    rw [runsFrom] at hiv
    obtain ⟨hhead, htail⟩ := List.pairwise_cons.mp hpw
    have hppos : prev < pos := hgt pos (List.mem_cons_self _ _)
    by_cases hc : pos = prev + 1
    · rw [if_pos hc] at hiv
      exact ih start pos (by omega) hhead htail iv hiv
    · rw [if_neg hc] at hiv
      rcases List.mem_cons.mp hiv with h | h
      · subst h
        exact ⟨Nat.le_refl _, by show start < prev + 1; omega⟩
      · obtain ⟨h1, h2⟩ := ih pos pos (Nat.le_refl _) hhead htail iv h
        exact ⟨by omega, h2⟩

/-- The intervals produced by `runsFrom` are strictly separated (each ends
strictly before the next starts), in emission order. -/
theorem runsFrom_pairwise (l : List Nat) :
    ∀ start prev : Nat, start ≤ prev → (∀ x ∈ l, prev < x) →
      List.Pairwise (· < ·) l →
      List.Pairwise (fun a b : Interval => a.iend < b.start) (runsFrom start prev l) := by
  induction l with
  | nil =>
    intro start prev _ _ _
    rw [runsFrom]
    exact List.pairwise_singleton _ _
  | cons pos rest ih =>
    intro start prev hsp hgt hpw
    obtain ⟨hhead, htail⟩ := List.pairwise_cons.mp hpw
    have hppos : prev < pos := hgt pos (List.mem_cons_self _ _)
    rw [runsFrom]
    by_cases hc : pos = prev + 1
    · rw [if_pos hc]
      exact ih start pos (by omega) hhead htail
    · rw [if_neg hc]
      refine List.pairwise_cons.mpr ⟨?_, ih pos pos (Nat.le_refl _) hhead htail⟩
      intro iv hiv
      obtain ⟨h1, -⟩ := runsFrom_start_le rest pos pos (Nat.le_refl _) hhead htail iv hiv
      show prev + 1 < iv.start
      omega

/-- Two adjacent retained positions always land inside a single interval
produced by `runsFrom`. -/
theorem runsFrom_covers (l : List Nat) :
    ∀ start prev : Nat, start ≤ prev → (∀ x ∈ l, prev < x) →
      List.Pairwise (· < ·) l → ∀ i : Nat,
      (start ≤ i ∧ i ≤ prev ∨ i ∈ l) →
      (start ≤ i + 1 ∧ i + 1 ≤ prev ∨ i + 1 ∈ l) →
      ∃ iv ∈ runsFrom start prev l, iv.start ≤ i ∧ i + 1 < iv.iend := by
  induction l with
  | nil =>
    intro start prev hsp _ _ i hi hi1
    rw [runsFrom]
    rcases hi with ⟨h1, h2⟩ | h
    · rcases hi1 with ⟨h3, h4⟩ | h
      · exact ⟨⟨start, prev + 1, "conserved"⟩, List.mem_singleton_self _, h1,
          by show i + 1 < prev + 1; omega⟩
      · exact absurd h (List.not_mem_nil _)
    · exact absurd h (List.not_mem_nil _)
  | cons pos rest ih =>
    intro start prev hsp hgt hpw i hi hi1
    obtain ⟨hhead, htail⟩ := List.pairwise_cons.mp hpw
    have hppos : prev < pos := hgt pos (List.mem_cons_self _ _)
    rw [runsFrom]
    by_cases hc : pos = prev + 1
    · rw [if_pos hc]
      refine ih start pos (by omega) hhead htail i ?_ ?_
      · rcases hi with ⟨h1, h2⟩ | h
        · exact Or.inl ⟨h1, by omega⟩
        · rcases List.mem_cons.mp h with h | h
          · exact Or.inl ⟨by omega, by omega⟩
          · exact Or.inr h
      · rcases hi1 with ⟨h3, h4⟩ | h
        · exact Or.inl ⟨h3, by omega⟩
        · rcases List.mem_cons.mp h with h | h
          · exact Or.inl ⟨by omega, by omega⟩
          · exact Or.inr h
    · rw [if_neg hc]
      rcases hi with ⟨h1, h2⟩ | h
      · rcases hi1 with ⟨h3, h4⟩ | h
        · exact ⟨⟨start, prev + 1, "conserved"⟩, List.mem_cons_self _ _, h1,
            by show i + 1 < prev + 1; omega⟩
        · exfalso
          rcases List.mem_cons.mp h with h | h
          · omega
          · have := hhead _ h
            omega
      · have hile : pos ≤ i := by
          rcases List.mem_cons.mp h with h | h
          · omega
          · have := hhead _ h
            omega
        have hi' : pos ≤ i ∧ i ≤ pos ∨ i ∈ rest := by
          rcases List.mem_cons.mp h with h | h
          · exact Or.inl ⟨by omega, by omega⟩
          · exact Or.inr h
        have hi1' : pos ≤ i + 1 ∧ i + 1 ≤ pos ∨ i + 1 ∈ rest := by
          rcases hi1 with ⟨h3, h4⟩ | h'
          · exact absurd h4 (by omega)
          · rcases List.mem_cons.mp h' with h' | h'
            · exact Or.inl ⟨by omega, by omega⟩
            · exact Or.inr h'
        obtain ⟨iv, hiv, hcov⟩ := ih pos pos (Nat.le_refl _) hhead htail i hi' hi1'
        exact ⟨iv, List.mem_cons_of_mem _ hiv, hcov⟩

/-- Non-degeneracy of the merged regions of a strictly increasing
position list. -/
theorem positionsToRegions_start_lt (L : List Nat)
    (hpw : List.Pairwise (· < ·) L) :
    ∀ iv ∈ positionsToRegions L, iv.start < iv.iend := by
  cases L with
  | nil =>
    intro iv hiv
    exact absurd hiv (List.not_mem_nil _)
  | cons p rest =>
    intro iv hiv
    obtain ⟨hhead, htail⟩ := List.pairwise_cons.mp hpw
    exact (runsFrom_start_le rest p p (Nat.le_refl _) hhead htail iv hiv).2

/-- Strict separation of the merged regions of a strictly increasing
position list. -/
theorem positionsToRegions_pairwise (L : List Nat)
    (hpw : List.Pairwise (· < ·) L) :
    List.Pairwise (fun a b : Interval => a.iend < b.start) (positionsToRegions L) := by
  cases L with
  | nil => exact List.Pairwise.nil
  | cons p rest =>
    obtain ⟨hhead, htail⟩ := List.pairwise_cons.mp hpw
    exact runsFrom_pairwise rest p p (Nat.le_refl _) hhead htail

/-- Adjacent positions of a strictly increasing list are merged into one
region. -/
theorem positionsToRegions_covers (L : List Nat)
    (hpw : List.Pairwise (· < ·) L) (i : Nat) (hi : i ∈ L) (hi1 : i + 1 ∈ L) :
    ∃ iv ∈ positionsToRegions L, iv.start ≤ i ∧ i + 1 < iv.iend := by
  cases L with
  | nil => exact absurd hi (List.not_mem_nil _)
  | cons p rest =>
    obtain ⟨hhead, htail⟩ := List.pairwise_cons.mp hpw
    refine runsFrom_covers rest p p (Nat.le_refl _) hhead htail i ?_ ?_
    · rcases List.mem_cons.mp hi with h | h
      · exact Or.inl ⟨by omega, by omega⟩
      · exact Or.inr h
    · rcases List.mem_cons.mp hi1 with h | h
      · exact Or.inl ⟨by omega, by omega⟩
      · exact Or.inr h

end DnaPipeline

namespace DnaPipeline

/-- Claim C7: the conserved intervals returned by
`identify_conserved_regions` are maximal merged runs of consecutive
conserved columns: each interval is non-degenerate (`start < end`), the
intervals are pairwise non-overlapping and non-adjacent (each ends strictly
before the next begins), and any two adjacent conserved columns lie inside
one and the same returned interval. -/
theorem C7_conserved_regions (sequences : List (List Char)) (threshold : ℚ)
    (minLen : Nat) (regions : List Interval)
    (hm : minLength? sequences = some minLen)
    (h : identify_conserved_regions sequences threshold = some regions) :
    (∀ iv ∈ regions, iv.start < iv.iend) ∧
    List.Pairwise (fun a b : Interval => a.iend < b.start) regions ∧
    ∀ i : Nat, i + 1 < minLen → conservedAt sequences threshold i = true →
      conservedAt sequences threshold (i + 1) = true →
      ∃ iv ∈ regions, iv.start ≤ i ∧ i + 1 < iv.iend := by
  unfold identify_conserved_regions at h
  rw [hm] at h
  have hre : positionsToRegions
      ((List.range minLen).filter (conservedAt sequences threshold)) = regions := by
    simpa using h
  have hpw : List.Pairwise (· < ·)
      ((List.range minLen).filter (conservedAt sequences threshold)) :=
    (List.pairwise_lt_range minLen).filter _
  rw [← hre]
  refine ⟨positionsToRegions_start_lt _ hpw, positionsToRegions_pairwise _ hpw, ?_⟩
  intro i hilt hci hci1
  exact positionsToRegions_covers _ hpw i
    (List.mem_filter.mpr ⟨List.mem_range.mpr (by omega), hci⟩)
    (List.mem_filter.mpr ⟨List.mem_range.mpr hilt, hci1⟩)

/-- Claim C7 witness: for the two sequences `AA` and `AC` with threshold
`1/2`, both columns are conserved and merge into the single returned
interval `[0, 2)`, which covers the adjacent conserved columns 0 and 1. -/
theorem C7_conserved_regions_witness :
    ∃ iv ∈ [(⟨0, 2, "conserved"⟩ : Interval)], iv.start ≤ 0 ∧ 0 + 1 < iv.iend := by
  have hm : minLength? [['A', 'A'], ['A', 'C']] = some 2 := by decide
  have hcol0 : colSample [['A', 'A'], ['A', 'C']] 0 = ['A', 'A'] := by decide
  have hcol1 : colSample [['A', 'A'], ['A', 'C']] 1 = ['A', 'C'] := by decide
  have hmax0 : maxCount ['A', 'A'] = 2 := by decide
  have hmax1 : maxCount ['A', 'C'] = 1 := by decide
  have h0 : conservedAt [['A', 'A'], ['A', 'C']] (1 / 2) 0 = true := by
    simp only [conservedAt, hcol0, hmax0]
    norm_num
  have h1 : conservedAt [['A', 'A'], ['A', 'C']] (1 / 2) 1 = true := by
    simp only [conservedAt, hcol1, hmax1]
    norm_num
  have hfil : (List.range 2).filter (conservedAt [['A', 'A'], ['A', 'C']] (1 / 2)) =
      [0, 1] := by
    have hr : List.range 2 = [0, 1] := by decide
    rw [hr, List.filter_cons_of_pos h0, List.filter_cons_of_pos h1, List.filter_nil]
  have hcr : identify_conserved_regions [['A', 'A'], ['A', 'C']] (1 / 2) =
      some [⟨0, 2, "conserved"⟩] := by
    unfold identify_conserved_regions
    rw [hm]
    simp only [Option.map_some']
    rw [hfil]
    rfl
  exact (C7_conserved_regions [['A', 'A'], ['A', 'C']] (1 / 2) 2
    [⟨0, 2, "conserved"⟩] hm hcr).2.2 0 (by omega) h0 h1

end DnaPipeline
